import Mathlib

/-!
Verification of the `android-translations` tool (src/main.go) against its
natural-language specification.

The development shallowly embeds the Go program: strings and byte contents
become `List Char`, Go maps become association lists (so that the map
iteration order that Go leaves unspecified is an explicit part of the model),
timestamps (`time.Time`) become integers ordered by `<`, and the external
`git` subprocess calls of `getLastModifiedTime` become an oracle parameter
returning `Option Int` (`none` models any subprocess or parse failure).
Catalog files enter the model already XML-decoded (`xml.Unmarshal` is not
modelled; a decoding failure aborts the run before any logic modelled here).
-/

namespace AndroidTranslations

/-- Character strings, the model of Go strings (Go indexes bytes, but every
string handled by the program is compared and split by whole code points, so
a rune-level model is faithful). -/
abbrev Str := List Char

/-- Index of the first occurrence of `sep` inside `s`: the least `i` such
that `sep` is a prefix of `s.drop i`, or `none` when there is none. -/
def firstOcc (sep : Str) : Str → Option Nat
  | [] => if sep.isPrefixOf [] then some 0 else none
  | c :: rest =>
    if sep.isPrefixOf (c :: rest) then some 0
    else (firstOcc sep rest).map (· + 1)

/-- Occurrence of `t` as a contiguous verbatim slice of `s`. -/
def Occurs (t s : Str) : Prop := ∃ pre post, s = pre ++ t ++ post

/-- Worker for `goSplit`: repeatedly cut at the leftmost occurrence of `sep`.
The fuel argument only bounds the recursion depth; `s.length` is always
sufficient fuel because every cut consumes at least one character. -/
def goSplitAux (sep : Str) : Nat → Str → List Str
  | 0, s => [s]
  | fuel + 1, s =>
    match firstOcc sep s with
    | none => [s]
    | some i => s.take i :: goSplitAux sep fuel (s.drop (i + sep.length))

/-- Model of Go `strings.Split`. For a non-empty separator it cuts `s` at
every leftmost non-overlapping occurrence of `sep`; for the empty separator
it explodes `s` into its characters (runes), as the Go standard library
documents. -/
def goSplit (s sep : Str) : List Str :=
  if sep = [] then s.map (fun c => [c])
  else goSplitAux sep s.length s

/-- Model of `strings.Count(s, "\n")`: the number of newline characters. -/
def countNL (s : Str) : Nat := s.count '\n'

/-- Model of `getLineRange` (src/main.go): split the file content on the
search term; fewer than two chunks means the term was not found (`none`
models the returned error); otherwise the start line is `1 +` the newline
count of the first chunk and the line count is `1 +` the newline count of
the search term itself. -/
def getLineRange (fileContent : Str) (searchTerm : Str) : Option (Nat × Nat) :=
  let chunks := goSplit fileContent searchTerm
  if chunks.length < 2 then none
  else some (1 + countNL chunks.headI, 1 + countNL searchTerm)

/-- Decomposition of a text into its segments between occurrences of a
separator character, keeping empty segments (for `sep = '\n'` this is the
standard line decomposition, used to state what "the lines identified by a
span" are). -/
def splitChar (sep : Char) : Str → List Str
  | [] => [[]]
  | c :: rest =>
    if c = sep then [] :: splitChar sep rest
    else (splitChar sep rest).modifyHead (c :: ·)

/-- Inverse of `splitChar`: join segments back, interposing the separator. -/
def joinChar (sep : Char) : List Str → Str
  | [] => []
  | [x] => x
  | x :: y :: rest => x ++ sep :: joinChar sep (y :: rest)

/-- Last segment of a segment list (empty list gives the empty segment). -/
def lastD : List Str → Str
  | [] => []
  | [x] => x
  | _ :: y :: rest => lastD (y :: rest)

/-- Text of the lines `start, …, start + count - 1` (1-based) of `content`,
joined back with newlines: the text a `getLineRange` span identifies. -/
def extractLines (content : Str) (start count : Nat) : Str :=
  joinChar '\n' (((splitChar '\n' content).drop (start - 1)).take count)

/-- Model of `strings.EqualFold`: case-insensitive equality. `Char.toLower`
folds the ASCII range, which covers every comparison the program performs
(`"false"` markers and the `"values"` directory prefix). -/
def goEqualFold (a b : Str) : Bool :=
  a.map Char.toLower == b.map Char.toLower

/-- Model of the `IsTranslatable` method of `xmlTranslatable`: an entry is
translatable unless its `translatable` attribute equals `"false"` up to
case. -/
def IsTranslatable (translatable : Str) : Bool :=
  !(goEqualFold ("false".toList) translatable)

/-- The sentinel locale for resources in an unsuffixed `values` directory. -/
def defaultLocale : Str := "default".toList

/-- Model of `filepath.Base(filepath.Dir(path))` for clean slash-separated
paths: the name of the file's parent directory (`"."` when the path has no
directory part, as in Go). -/
def parentDirName (path : Str) : Str :=
  match (splitChar '/' path).dropLast with
  | [] => ['.']
  | comps => lastD comps

/-- Locale derivation from the parent directory name, the body of
`getLocaleForValuesFile` after `parent := filepath.Base(filepath.Dir(path))`:
a directory equal to `values` (up to case) is the default locale; otherwise
`strings.SplitN(parent, "-", 2)` keeps everything after the first hyphen,
falling back to the default locale when there is no hyphen. -/
def localeFromParent (parent : Str) : Str :=
  if goEqualFold parent ("values".toList) then defaultLocale
  else
    match firstOcc ['-'] parent with
    | none => defaultLocale
    | some i => parent.drop (i + 1)

/-- Model of `getLocaleForValuesFile` (src/main.go). -/
def getLocaleForValuesFile (path : Str) : Str :=
  localeFromParent (parentDirName path)

/-- Model of `unicode.IsSpace` on the white space characters relevant to
Android resource files (ASCII white space plus NEL and NBSP). -/
def goIsSpace (c : Char) : Bool :=
  c == ' ' || c == '\t' || c == '\n' || c == '\r' ||
    c.toNat == 11 || c.toNat == 12 || c.toNat == 0x85 || c.toNat == 0xA0

/-- Model of `strings.TrimSpace`. -/
def trimSpace (s : Str) : Str :=
  ((s.dropWhile goIsSpace).reverse.dropWhile goIsSpace).reverse

/-- Model of `xmlStringResource`: one decoded `<string>` tag (or `<item>` of
a `<string-array>`). `translatable` holds the raw attribute value
(`xmlTranslatable`), empty when the attribute is absent. -/
structure XmlStringResource where
  name : Str
  value : Str
  lastModified : Int
  translatable : Str
deriving DecidableEq

/-- Model of `xmlStringArrayResource`: one decoded `<string-array>` tag. -/
structure XmlStringArrayResource where
  name : Str
  items : List XmlStringResource
  translatable : Str
deriving DecidableEq

/-- Model of `xmlStringResources`: the decoded `<resources>` root. -/
structure XmlStringResources where
  strings : List XmlStringResource
  stringArrays : List XmlStringArrayResource
deriving DecidableEq

/-- One discovered values file: its path, raw text content and decoded
resources. -/
structure CatalogFile where
  path : Str
  content : Str
  resources : XmlStringResources
deriving DecidableEq

/-- Inner level of `localeStringsMap`: entry name to entry, as an
association list whose order is the (unspecified) Go map iteration order. -/
abbrev StrMap := List (Str × XmlStringResource)

/-- Model of `localeStringsMap`: locale to inner map. -/
abbrev LocaleMap := List (Str × StrMap)

/-- First-match association lookup in an inner map (Go map indexing). -/
def lookupS : StrMap → Str → Option XmlStringResource
  | [], _ => none
  | (k, v) :: rest, key => if k = key then some v else lookupS rest key

/-- First-match association lookup in the outer map (Go map indexing). -/
def lookupL : LocaleMap → Str → Option StrMap
  | [], _ => none
  | (k, v) :: rest, key => if k = key then some v else lookupL rest key

/-- Go map assignment `m[k] = v` on an inner map: replace in place or
append. -/
def insertEntry : StrMap → Str → XmlStringResource → StrMap
  | [], k, v => [(k, v)]
  | (k0, v0) :: rest, k, v =>
    if k0 = k then (k, v) :: rest else (k0, v0) :: insertEntry rest k v

/-- Update of the inner map stored under `key` (Go `m[locale][name] = str`);
leaves the map unchanged when `key` is absent (the program only assigns
after ensuring the key exists). -/
def updateLocale : LocaleMap → Str → (StrMap → StrMap) → LocaleMap
  | [], _, _ => []
  | (k0, m0) :: rest, key, f =>
    if k0 = key then (k0, f m0) :: rest else (k0, m0) :: updateLocale rest key f

/-- Oracle modelling `getLastModifiedTime`: given file path, start line and
line count it returns the maximal commit timestamp of the `git blame` call,
or `none` for any subprocess failure or unparseable timestamp. -/
def GitOracle := Str → Nat → Nat → Option Int

/-- Per-entry provenance resolution as performed inside
`findTranslatableStrings`: locate the value's line range, then ask the git
oracle; any failure falls back to the current wall-clock time `now`. The
boolean records whether a warning was printed. -/
def resolveLastModified (git : GitOracle) (now : Int) (path content value : Str) :
    Int × Bool :=
  match getLineRange content value with
  | none => (now, true)
  | some (start, count) =>
    match git path start count with
    | none => (now, true)
    | some t => (t, false)

/-- Name synthesized for the `i`-th item of a string array,
`fmt.Sprintf("%s[%d]", strArr.Name, i)`. -/
def synthName (arrName : Str) (i : Nat) : Str :=
  arrName ++ ('[' :: (Nat.repr i).toList) ++ [']']

/-- The inner loop over a translatable string array's items (index-carrying
form of `for i, strArrItem := range strArr.Items`): each item's name is
synthesized from the array name and index, its provenance resolved, and the
entry assigned into the locale's inner map. -/
def processItems (git : GitOracle) (now : Int) (path content locale arrName : Str) :
    Nat → List XmlStringResource → LocaleMap → LocaleMap
  | _, [], acc => acc
  | i, item :: rest, acc =>
    let nm := synthName arrName i
    let entry := { item with
      name := nm
      lastModified := (resolveLastModified git now path content item.value).1 }
    processItems git now path content locale arrName (i + 1) rest
      (updateLocale acc locale (fun mm => insertEntry mm nm entry))

/-- The loop `for _, str := range resources.Strings` of
`findTranslatableStrings`: skip entries marked non-translatable, resolve
provenance for the rest and assign them by name. -/
def processStrings (git : GitOracle) (now : Int) (path content locale : Str) :
    List XmlStringResource → LocaleMap → LocaleMap
  | [], acc => acc
  | s :: rest, acc =>
    processStrings git now path content locale rest
      (if IsTranslatable s.translatable then
        updateLocale acc locale (fun mm =>
          insertEntry mm s.name
            { s with
              lastModified := (resolveLastModified git now path content s.value).1 })
      else acc)

/-- The loop `for _, strArr := range resources.StringArrays` of
`findTranslatableStrings`: skip arrays marked non-translatable, insert the
items of the rest. -/
def processArrays (git : GitOracle) (now : Int) (path content locale : Str) :
    List XmlStringArrayResource → LocaleMap → LocaleMap
  | [], acc => acc
  | arr :: rest, acc =>
    processArrays git now path content locale rest
      (if IsTranslatable arr.translatable then
        processItems git now path content locale arr.name 0 arr.items acc
      else acc)

/-- Processing of one values file inside `findTranslatableStrings`: derive
the locale, create its (empty) inner map when the file declares any
resources and the locale is new, then insert the translatable flat strings
and the items of the translatable string arrays. -/
def processFile (git : GitOracle) (now : Int) (m : LocaleMap) (f : CatalogFile) :
    LocaleMap :=
  let locale := getLocaleForValuesFile f.path
  let strResCount := f.resources.strings.length + f.resources.stringArrays.length
  let m1 :=
    if lookupL m locale = none ∧ 0 < strResCount then m ++ [(locale, [])] else m
  processArrays git now f.path f.content locale f.resources.stringArrays
    (processStrings git now f.path f.content locale f.resources.strings m1)

/-- The outer loop of `findTranslatableStrings` over the discovered files. -/
def processFiles (git : GitOracle) (now : Int) :
    List CatalogFile → LocaleMap → LocaleMap
  | [], m => m
  | f :: rest, m => processFiles git now rest (processFile git now m f)

/-- Model of `findTranslatableStrings` (src/main.go) on the already decoded
catalog files. -/
def findTranslatableStrings (git : GitOracle) (now : Int)
    (files : List CatalogFile) : LocaleMap :=
  processFiles git now files []

/-- Origin of an index entry as allowed by the translatable filter: either a
translatable flat string of some catalog (whose name, value and translatable
marker the entry carries) or an item of a translatable string array, stored
under a synthesized name and carrying that item's value and marker. -/
def EntryOrigin (files : List CatalogFile) (n : Str) (e : XmlStringResource) :
    Prop :=
  (∃ f ∈ files, ∃ s ∈ f.resources.strings,
    IsTranslatable s.translatable = true ∧ n = s.name ∧
      e.name = s.name ∧ e.value = s.value ∧ e.translatable = s.translatable) ∨
  (∃ f ∈ files, ∃ arr ∈ f.resources.stringArrays,
    IsTranslatable arr.translatable = true ∧
      ∃ i, n = synthName arr.name i ∧
        ∃ item ∈ arr.items, e.name = synthName arr.name i ∧
          e.value = item.value ∧ e.translatable = item.translatable)

/-- The index has an inner map for `locale` that contains the key `nm`. -/
def HasEntry (m : LocaleMap) (locale nm : Str) : Prop :=
  ∃ mm, lookupL m locale = some mm ∧ (lookupS mm nm).isSome = true

/-- Model of `stringResource`, one output discrepancy record. -/
structure StringResource where
  name : Str
  value : Str
  missingLocales : List Str
  outdatedLocales : List Str
deriving DecidableEq

/-- Ordering used by `sort.Sort(stringResources(report))`: `Less` compares
record names with Go's lexicographic string order. -/
def byName (a b : StringResource) : Prop := a.name ≤ b.name

instance : DecidableRel byName := fun a b =>
  inferInstanceAs (Decidable (a.name ≤ b.name))

instance : IsTotal StringResource byName := ⟨fun a b => le_total a.name b.name⟩

instance : IsTrans StringResource byName := ⟨fun _ _ _ h1 h2 => le_trans h1 h2⟩

/-- One step of the loop `for locale := range localeStrings` in `main`: a
locale whose inner map lacks the entry name is appended to the missing
list; one whose entry is strictly older is appended to the outdated list;
otherwise the record is unchanged. -/
def classifyLocale (strName : Str) (lastModified : Int) (acc : StringResource)
    (p : Str × StrMap) : StringResource :=
  match lookupS p.2 strName with
  | none => { acc with missingLocales := acc.missingLocales ++ [p.1] }
  | some localeStr =>
    if localeStr.lastModified < lastModified then
      { acc with outdatedLocales := acc.outdatedLocales ++ [p.1] }
    else acc

/-- The record built for one canonical entry by `main`. -/
def computeRecord (localeStrings : LocaleMap) (str : XmlStringResource) :
    StringResource :=
  localeStrings.foldl (classifyLocale str.name str.lastModified)
    { name := str.name, value := trimSpace str.value,
      missingLocales := [], outdatedLocales := [] }

/-- Condition `len(MissingLocales) + len(OutdatedLocales) > 0` under which a
record enters the report. -/
def flagged (r : StringResource) : Bool :=
  decide (0 < r.missingLocales.length + r.outdatedLocales.length)

/-- One step of the loop `for _, str := range defaultStrings` of `main`:
append the computed record when it flags at least one locale. -/
def appendIfFlagged (localeStrings : LocaleMap) (rep : List StringResource)
    (p : Str × XmlStringResource) : List StringResource :=
  let r := computeRecord localeStrings p.2
  if flagged r then rep ++ [r] else rep

/-- The unsorted report built by `main`. -/
def reportFor (localeStrings : LocaleMap) (defaultStrings : StrMap) :
    List StringResource :=
  defaultStrings.foldl (appendIfFlagged localeStrings) []

/-- Predicate under which `classifyLocale` flags a locale as missing. -/
def missP (strName : Str) (p : Str × StrMap) : Bool :=
  (lookupS p.2 strName).isNone

/-- Predicate under which `classifyLocale` flags a locale as outdated. -/
def outdP (strName : Str) (lastModified : Int) (p : Str × StrMap) : Bool :=
  match lookupS p.2 strName with
  | none => false
  | some e => decide (e.lastModified < lastModified)

/-- The full discrepancy computation of `main`: build the report, then sort
it by record name (`sort.Sort` with the `stringResources.Less` comparison;
names are unique within the canonical locale, so any comparison sort
produces this result). -/
def computeReport (localeStrings : LocaleMap) (defaultStrings : StrMap) :
    List StringResource :=
  (reportFor localeStrings defaultStrings).insertionSort byName

/-- The fatal guard of `main`: look up the canonical locale and abort
(`none`) when it is absent, otherwise compute the report. -/
def mainReport (localeStrings : LocaleMap) : Option (List StringResource) :=
  match lookupL localeStrings defaultLocale with
  | none => none
  | some defaultStrings => some (computeReport localeStrings defaultStrings)

/-- Agreement of two discrepancy records up to the order of their inner
locale lists. -/
def recordEquiv (r₁ r₂ : StringResource) : Prop :=
  r₁.name = r₂.name ∧ r₁.value = r₂.value ∧
    r₁.missingLocales.Perm r₂.missingLocales ∧
    r₁.outdatedLocales.Perm r₂.outdatedLocales

/-! ## Theorems -/

theorem firstOcc_isPrefixOf {sep s : Str} {i : Nat}
    (h : firstOcc sep s = some i) : sep.isPrefixOf (s.drop i) = true := by
  induction s generalizing i with
  | nil =>
    unfold firstOcc at h
    split at h
    · rename_i hp
      simp only [Option.some.injEq] at h
      subst h
      exact hp
    · simp at h
  | cons c rest ih =>
    unfold firstOcc at h
    split at h
    · rename_i hp
      simp only [Option.some.injEq] at h
      subst h
      rw [List.drop_zero]
      exact hp
    · match hrec : firstOcc sep rest with
      | none => rw [hrec] at h; simp at h
      | some j =>
        rw [hrec] at h
        simp only [Option.map_some', Option.some.injEq] at h
        subst h
        simpa using ih hrec

theorem firstOcc_lt_length {sep s : Str} {i : Nat} (hne : sep ≠ [])
    (h : firstOcc sep s = some i) : i < s.length := by
  have hpre := firstOcc_isPrefixOf h
  obtain ⟨u, hu⟩ := List.isPrefixOf_iff_prefix.mp hpre
  by_contra hge
  push_neg at hge
  have : s.drop i = [] := List.drop_eq_nil_of_le hge
  rw [this] at hu
  exact hne (List.append_eq_nil.mp hu).1

theorem firstOcc_nil {sep : Str} (hne : sep ≠ []) : firstOcc sep [] = none := by
  match sep, hne with
  | c :: rest, _ => rfl

theorem goSplitAux_congr {sep : Str} (hne : sep ≠ []) :
    ∀ f₁ f₂ s, s.length ≤ f₁ → s.length ≤ f₂ →
      goSplitAux sep f₁ s = goSplitAux sep f₂ s
  | 0, f₂, s, h₁, _ => by
    have hs : s = [] := List.eq_nil_of_length_eq_zero (Nat.le_zero.mp h₁)
    subst hs
    cases f₂ with
    | zero => rfl
    | succ g => simp [goSplitAux, firstOcc_nil hne]
  | f₁ + 1, f₂, s, _, h₂ => by
    cases f₂ with
    | zero =>
      have hs : s = [] := List.eq_nil_of_length_eq_zero (Nat.le_zero.mp h₂)
      subst hs
      simp [goSplitAux, firstOcc_nil hne]
    | succ g =>
      simp only [goSplitAux]
      split
      · rfl
      · rename_i i hfo
        have hi := firstOcc_lt_length hne hfo
        have hsep : 0 < sep.length := List.length_pos.mpr hne
        have hd : (s.drop (i + sep.length)).length ≤ f₁ := by
          simp only [List.length_drop]
          omega
        have hd₂ : (s.drop (i + sep.length)).length ≤ g := by
          simp only [List.length_drop]
          omega
        rw [goSplitAux_congr hne f₁ g _ hd hd₂]

theorem goSplit_none {s sep : Str} (hne : sep ≠ []) (h : firstOcc sep s = none) :
    goSplit s sep = [s] := by
  unfold goSplit
  rw [if_neg hne]
  cases hl : s.length with
  | zero => rfl
  | succ n => simp [goSplitAux, h]

theorem goSplit_some {s sep : Str} {i : Nat} (hne : sep ≠ [])
    (h : firstOcc sep s = some i) :
    goSplit s sep = s.take i :: goSplit (s.drop (i + sep.length)) sep := by
  have hi := firstOcc_lt_length hne h
  have hsep : 0 < sep.length := List.length_pos.mpr hne
  unfold goSplit
  rw [if_neg hne, if_neg hne]
  cases hl : s.length with
  | zero => exact absurd (hl ▸ hi) (Nat.not_lt_zero i)
  | succ n =>
    simp only [goSplitAux, h]
    rw [goSplitAux_congr hne n (s.drop (i + sep.length)).length _
      (by simp only [List.length_drop]; omega) (le_refl _)]

theorem goSplit_ne_nil {s sep : Str} (hne : sep ≠ []) : goSplit s sep ≠ [] := by
  unfold goSplit
  rw [if_neg hne]
  cases s.length with
  | zero => simp [goSplitAux]
  | succ n =>
    simp only [goSplitAux]
    split <;> simp

theorem firstOcc_none_of_not_occurs {t s : Str} (h : ¬ Occurs t s) :
    firstOcc t s = none := by
  induction s with
  | nil =>
    unfold firstOcc
    split
    · rename_i hp
      obtain ⟨u, hu⟩ := List.isPrefixOf_iff_prefix.mp hp
      exact absurd ⟨[], u, by simpa using hu.symm⟩ h
    · rfl
  | cons c rest ih =>
    unfold firstOcc
    split
    · rename_i hpre
      obtain ⟨u, hu⟩ := List.isPrefixOf_iff_prefix.mp hpre
      exact absurd ⟨[], u, by simpa using hu.symm⟩ h
    · have : ¬ Occurs t rest := by
        rintro ⟨pre, post, rfl⟩
        exact h ⟨c :: pre, post, by simp⟩
      rw [ih this]
      rfl

theorem occurs_of_firstOcc {t s : Str} {i : Nat} (h : firstOcc t s = some i) :
    s = s.take i ++ t ++ s.drop (i + t.length) := by
  have hpre := firstOcc_isPrefixOf h
  obtain ⟨u, hu⟩ := List.isPrefixOf_iff_prefix.mp hpre
  have hd : s.drop (i + t.length) = u := by
    rw [← List.drop_drop, ← hu, List.drop_left]
  rw [hd, List.append_assoc, hu, List.take_append_drop]

theorem firstOcc_isSome_of_prefix (t : Str) :
    ∀ (s : Str) (i : Nat), t.isPrefixOf (s.drop i) = true →
      (firstOcc t s).isSome = true
  | [], i, h => by
    simp only [List.drop_nil] at h
    simp [firstOcc, h]
  | c :: rest, 0, h => by
    rw [List.drop_zero] at h
    simp [firstOcc, h]
  | c :: rest, j + 1, h => by
    have ih := firstOcc_isSome_of_prefix t rest j (by simpa using h)
    simp only [firstOcc]
    split
    · rfl
    · simpa using ih

theorem firstOcc_isSome_of_occurs {t s : Str} (h : Occurs t s) :
    (firstOcc t s).isSome = true := by
  obtain ⟨pre, post, rfl⟩ := h
  apply firstOcc_isSome_of_prefix t _ pre.length
  rw [List.append_assoc, List.drop_left]
  exact List.isPrefixOf_iff_prefix.mpr ⟨post, rfl⟩

theorem getLineRange_eq_of_firstOcc {content searchTerm : Str} {i : Nat}
    (hne : searchTerm ≠ []) (h : firstOcc searchTerm content = some i) :
    getLineRange content searchTerm =
      some (1 + countNL (content.take i), 1 + countNL searchTerm) := by
  simp only [getLineRange]
  rw [goSplit_some hne h]
  have hlen : 0 < (goSplit (content.drop (i + searchTerm.length)) searchTerm).length :=
    List.length_pos.mpr (goSplit_ne_nil hne)
  rw [if_neg (by simp only [List.length_cons]; omega)]
  rfl

/-- C2: `getLineRange` with a non-empty search term fails exactly when the
term does not occur in the content; on success it returns `1 +` the number
of newlines strictly before the first occurrence and `1 +` the number of
newlines inside the search term (only the first occurrence counts). -/
theorem getLineRange_first_occurrence (content searchTerm : Str)
    (hne : searchTerm ≠ []) :
    (¬ Occurs searchTerm content → getLineRange content searchTerm = none) ∧
    (∀ i, firstOcc searchTerm content = some i →
      getLineRange content searchTerm =
        some (1 + countNL (content.take i), 1 + countNL searchTerm)) := by
  constructor
  · intro hno
    have h := firstOcc_none_of_not_occurs hno
    simp only [getLineRange]
    rw [goSplit_none hne h]
    simp
  · intro i h
    exact getLineRange_eq_of_firstOcc hne h

theorem getLineRange_first_occurrence_witness :
    firstOcc ['b'] ['a', '\n', 'b'] = some 2 ∧
      getLineRange ['a', '\n', 'b'] ['b'] =
        some (1 + countNL ((['a', '\n', 'b'] : Str).take 2), 1 + countNL ['b']) :=
  ⟨by decide, (getLineRange_first_occurrence _ _ (by decide)).2 2 (by decide)⟩

/-- C10: with an empty search term `getLineRange` succeeds whenever the
content has at least two characters, returning `1 +` the newline count of
the first character and a span of one line; it reports not-found exactly
when the content has fewer than two characters. -/
theorem getLineRange_empty_searchTerm (content : Str) :
    (2 ≤ content.length →
      getLineRange content [] = some (1 + countNL (content.take 1), 1)) ∧
    (content.length < 2 → getLineRange content [] = none) := by
  have hsplit : goSplit content [] = content.map (fun c => [c]) := by
    unfold goSplit
    rw [if_pos rfl]
  constructor
  · intro h2
    cases content with
    | nil => simp at h2
    | cons c rest =>
      cases rest with
      | nil => simp at h2
      | cons d rest2 =>
        simp only [getLineRange, hsplit, List.map_cons, List.length_cons]
        rw [if_neg (by omega)]
        simp [countNL]
  · intro h2
    cases content with
    | nil =>
      simp only [getLineRange, hsplit, List.map_nil, List.length_nil]
      rw [if_pos (by omega)]
    | cons c rest =>
      cases rest with
      | nil =>
        simp only [getLineRange, hsplit, List.map_cons, List.map_nil,
          List.length_cons, List.length_nil]
        rw [if_pos (by omega)]
      | cons d rest2 =>
        simp only [List.length_cons] at h2
        omega

theorem getLineRange_empty_searchTerm_witness :
    2 ≤ (['a', 'b'] : Str).length ∧
      getLineRange ['a', 'b'] [] = some (1 + countNL ((['a', 'b'] : Str).take 1), 1) ∧
      (['a'] : Str).length < 2 ∧ getLineRange ['a'] [] = none :=
  ⟨by decide, (getLineRange_empty_searchTerm _).1 (by decide), by decide,
    (getLineRange_empty_searchTerm ['a']).2 (by decide)⟩

theorem splitChar_ne_nil (sep : Char) : ∀ l : Str, splitChar sep l ≠ []
  | [] => by simp [splitChar]
  | c :: rest => by
    simp only [splitChar]
    split
    · simp
    · match h : splitChar sep rest with
      | [] => exact absurd h (splitChar_ne_nil sep rest)
      | x :: xs => simp

theorem length_splitChar (sep : Char) :
    ∀ l : Str, (splitChar sep l).length = 1 + l.count sep
  | [] => by simp [splitChar]
  | c :: rest => by
    have ih := length_splitChar sep rest
    by_cases hc : c = sep
    · simp [splitChar, hc, List.count_cons, ih]
      omega
    · simp [splitChar, hc, List.count_cons, ih]

theorem joinChar_cons (sep : Char) (x : Str) (M : List Str) (h : M ≠ []) :
    joinChar sep (x :: M) = x ++ sep :: joinChar sep M := by
  match M with
  | y :: rest => rfl

theorem joinChar_modifyHead_cons (sep : Char) (c : Char) :
    ∀ L : List Str, L ≠ [] →
      joinChar sep (L.modifyHead (c :: ·)) = c :: joinChar sep L
  | [x], _ => rfl
  | x :: y :: rest, _ => rfl

theorem joinChar_modifyHead_append (sep : Char) (a : Str) :
    ∀ L : List Str, L ≠ [] →
      joinChar sep (L.modifyHead (a ++ ·)) = a ++ joinChar sep L
  | [x], _ => rfl
  | x :: y :: rest, _ => by
    show (a ++ x) ++ sep :: joinChar sep (y :: rest) =
      a ++ (x ++ sep :: joinChar sep (y :: rest))
    rw [List.append_assoc]

theorem joinChar_splitChar (sep : Char) :
    ∀ l : Str, joinChar sep (splitChar sep l) = l
  | [] => rfl
  | c :: rest => by
    have ih := joinChar_splitChar sep rest
    by_cases hc : c = sep
    · simp only [splitChar, if_pos hc]
      rw [joinChar_cons sep [] (splitChar sep rest) (splitChar_ne_nil sep rest), ih, hc]
      rfl
    · simp only [splitChar, if_neg hc]
      rw [joinChar_modifyHead_cons sep c (splitChar sep rest)
        (splitChar_ne_nil sep rest), ih]

theorem joinChar_dropLast_concat (sep : Char) (c : Str) :
    ∀ L : List Str, L ≠ [] →
      joinChar sep (L.dropLast ++ [lastD L ++ c]) = joinChar sep L ++ c
  | [x], _ => by simp [joinChar, lastD]
  | x :: y :: rest, _ => by
    have ih := joinChar_dropLast_concat sep c (y :: rest) (by simp)
    rw [List.dropLast_cons₂]
    simp only [lastD, List.cons_append]
    rw [joinChar_cons sep x ((y :: rest).dropLast ++ [lastD (y :: rest) ++ c])
      (by simp), ih]
    rw [joinChar_cons sep x (y :: rest) (by simp)]
    simp [List.append_assoc]

theorem splitChar_append (sep : Char) :
    ∀ x y : Str,
      splitChar sep (x ++ y) =
        (splitChar sep x).dropLast ++
          (splitChar sep y).modifyHead (lastD (splitChar sep x) ++ ·)
  | [], y => by
    simp only [List.nil_append, splitChar, lastD, List.dropLast_single]
    cases h : splitChar sep y with
    | nil => exact absurd h (splitChar_ne_nil sep y)
    | cons b bs => simp
  | c :: rest, y => by
    have ih := splitChar_append sep rest y
    by_cases hc : c = sep
    · rw [List.cons_append]
      simp only [splitChar, if_pos hc]
      rw [ih]
      cases hA : splitChar sep rest with
      | nil => exact absurd hA (splitChar_ne_nil sep rest)
      | cons z zs =>
        cases zs with
        | nil => simp [lastD, List.dropLast_cons₂]
        | cons w ws => simp [lastD, List.dropLast_cons₂]
    · rw [List.cons_append]
      simp only [splitChar, if_neg hc]
      rw [ih]
      cases hA : splitChar sep rest with
      | nil => exact absurd hA (splitChar_ne_nil sep rest)
      | cons z zs =>
        cases zs with
        | nil =>
          cases hB : splitChar sep y with
          | nil => exact absurd hB (splitChar_ne_nil sep y)
          | cons b bs => simp [lastD, List.modifyHead_cons]
        | cons w ws =>
          simp [lastD, List.dropLast_cons₂, List.modifyHead_cons]

theorem take_modifyHead_pos {n : Nat} (f : Str → Str) (l : List Str) (h : 0 < n) :
    List.take n (l.modifyHead f) = (List.take n l).modifyHead f := by
  cases l with
  | nil => simp
  | cons x xs =>
    cases n with
    | zero => omega
    | succ m => simp [List.modifyHead]

/-- Key structural fact: for a content decomposed as `pre ++ t ++ post`, the
span computed from the newline counts of `pre` and `t` extracts exactly the
tail of `pre` after its last newline, then `t`, then the head of `post`
before its first newline. -/
theorem extractLines_append (pre t post : Str) :
    extractLines (pre ++ t ++ post) (1 + countNL pre) (1 + countNL t) =
      lastD (splitChar '\n' pre) ++ t ++ (splitChar '\n' post).headI := by
  simp only [extractLines, List.append_assoc]
  rw [splitChar_append '\n' pre (t ++ post), splitChar_append '\n' t post]
  have hstart : 1 + countNL pre - 1 = (splitChar '\n' pre).dropLast.length := by
    have h := length_splitChar '\n' pre
    simp only [List.length_dropLast, h, countNL]
  rw [hstart, List.drop_left]
  have hcount : 1 + countNL t = (splitChar '\n' t).length :=
    (length_splitChar '\n' t).symm
  rw [hcount]
  rw [take_modifyHead_pos _ _ (List.length_pos.mpr (splitChar_ne_nil '\n' t))]
  cases hB : splitChar '\n' t with
  | nil => exact absurd hB (splitChar_ne_nil '\n' t)
  | cons b bs =>
    cases hC : splitChar '\n' post with
    | nil => exact absurd hC (splitChar_ne_nil '\n' post)
    | cons c0 cs =>
      simp only [List.modifyHead_cons]
      have hlen : (b :: bs).length = (b :: bs).dropLast.length + 1 := by
        simp
      rw [hlen, List.take_append]
      have htake1 :
          List.take 1 ((lastD (b :: bs) ++ c0) :: cs) = [lastD (b :: bs) ++ c0] := by
        simp
      rw [htake1]
      rw [joinChar_modifyHead_append '\n' (lastD (splitChar '\n' pre))
        ((b :: bs).dropLast ++ [lastD (b :: bs) ++ c0]) (by simp)]
      rw [joinChar_dropLast_concat '\n' c0 (b :: bs) (by simp)]
      rw [← hB, joinChar_splitChar]
      simp [List.append_assoc]

/-- C3 as stated is false: for the content `"ab"` and search term `"a"`, a
verbatim contiguous slice, the returned span `(1, 1)` identifies line 1,
whose extracted text is `"ab"`, not `"a"`. -/
theorem getLineRange_span_counterexample :
    Occurs ['a'] ['a', 'b'] ∧ getLineRange ['a', 'b'] ['a'] = some (1, 1) ∧
      extractLines ['a', 'b'] 1 1 = ['a', 'b'] ∧
      extractLines ['a', 'b'] 1 1 ≠ ['a'] :=
  ⟨⟨[], ['b'], rfl⟩, by decide, by decide, by decide⟩

/-- C3 amended: for a non-empty search term occurring verbatim in the
content, the span returned by `getLineRange` identifies lines whose
extracted text contains the search term as a contiguous slice (equality
holds only when the occurrence is aligned on line boundaries, which the
code does not guarantee). -/
theorem getLineRange_span_contains (content searchTerm : Str)
    (hne : searchTerm ≠ []) (hocc : Occurs searchTerm content) :
    ∃ start count, getLineRange content searchTerm = some (start, count) ∧
      Occurs searchTerm (extractLines content start count) := by
  have hsome := firstOcc_isSome_of_occurs hocc
  obtain ⟨i, hi⟩ := Option.isSome_iff_exists.mp hsome
  refine ⟨1 + countNL (content.take i), 1 + countNL searchTerm,
    getLineRange_eq_of_firstOcc hne hi, ?_⟩
  have hdec := occurs_of_firstOcc hi
  set pre := content.take i with hpreDef
  set post := content.drop (i + searchTerm.length) with hpostDef
  rw [hdec, extractLines_append pre searchTerm post]
  exact ⟨lastD (splitChar '\n' pre), (splitChar '\n' post).headI, rfl⟩

theorem getLineRange_span_contains_witness :
    ∃ start count,
      getLineRange ['x', '\n', 'a', 'b'] ['a'] = some (start, count) ∧
        Occurs ['a'] (extractLines ['x', '\n', 'a', 'b'] start count) :=
  getLineRange_span_contains _ _ (by decide) ⟨['x', '\n'], ['b'], rfl⟩

/-- C5: locale derivation from the catalog file's parent directory name:
the function factors through the parent name; a parent equal to `values`
maps to the default locale; `values-<tag>` maps to `<tag>`, everything
after the first hyphen, with no further splitting; any parent without a
hyphen (such as `valuesFoo`) falls back to the default locale. -/
theorem getLocaleForValuesFile_locale_derivation :
    (∀ path, getLocaleForValuesFile path = localeFromParent (parentDirName path)) ∧
    localeFromParent ("values".toList) = defaultLocale ∧
    (∀ tag : Str, localeFromParent ("values-".toList ++ tag) = tag) ∧
    (∀ parent : Str, '-' ∉ parent → localeFromParent parent = defaultLocale) := by
  refine ⟨fun _ => rfl, by decide, ?_, ?_⟩
  · intro tag
    have hv : ("values-".toList : Str) = ['v', 'a', 'l', 'u', 'e', 's', '-'] := rfl
    rw [hv]
    unfold localeFromParent
    have hfold :
        ¬ goEqualFold (['v', 'a', 'l', 'u', 'e', 's', '-'] ++ tag)
          ("values".toList) = true := by
      intro h
      have heq := eq_of_beq h
      have hl := congrArg List.length heq
      simp only [List.length_map, List.length_append, List.length_cons,
        List.length_nil] at hl
      have hlv : ("values".toList : Str).length = 6 := rfl
      rw [hlv] at hl
      omega
    rw [if_neg hfold]
    have hfo : firstOcc ['-'] (['v', 'a', 'l', 'u', 'e', 's', '-'] ++ tag) = some 6 := by
      simp +decide [firstOcc, List.isPrefixOf]
    rw [hfo]
    show (['v', 'a', 'l', 'u', 'e', 's', '-'] ++ tag).drop (6 + 1) = tag
    have h7 : (['v', 'a', 'l', 'u', 'e', 's', '-'] : Str).length = 6 + 1 := rfl
    rw [← h7, List.drop_left]
  · intro parent hno
    unfold localeFromParent
    by_cases hf : goEqualFold parent ("values".toList) = true
    · rw [if_pos hf]
    · rw [if_neg hf]
      have hocc : firstOcc ['-'] parent = none := by
        apply firstOcc_none_of_not_occurs
        rintro ⟨pre, post, rfl⟩
        exact hno (by simp)
      rw [hocc]

theorem getLocaleForValuesFile_locale_derivation_witness :
    localeFromParent ("values-".toList ++ "zh-rCN".toList) = "zh-rCN".toList ∧
      ('-' ∉ ("valuesFoo".toList : Str)) ∧
      localeFromParent ("valuesFoo".toList) = defaultLocale :=
  ⟨getLocaleForValuesFile_locale_derivation.2.2.1 ("zh-rCN".toList), by decide,
    getLocaleForValuesFile_locale_derivation.2.2.2 ("valuesFoo".toList) (by decide)⟩

theorem lookupL_eq_none {m : LocaleMap} {key : Str} :
    lookupL m key = none ↔ key ∉ m.map Prod.fst := by
  induction m with
  | nil => simp [lookupL]
  | cons p rest ih =>
    obtain ⟨k, v⟩ := p
    by_cases hk : k = key
    · subst hk
      simp only [lookupL, if_pos rfl, List.map_cons, List.mem_cons]
      constructor
      · intro h
        exact Option.noConfusion h
      · intro h
        exact absurd (Or.inl trivial) h
    · simp only [lookupL, if_neg hk, List.map_cons, List.mem_cons, ih]
      constructor
      · rintro h (rfl | hmem)
        · exact hk rfl
        · exact h hmem
      · intro h
        exact fun hmem => h (Or.inr hmem)

/-- C9: the discrepancy computation of `main` aborts exactly when the
canonical locale `default` is absent as a key of the aggregated index; when
it is present the computation proceeds and produces the report. -/
theorem mainReport_default_locale (ls : LocaleMap) :
    (mainReport ls = none ↔ defaultLocale ∉ ls.map Prod.fst) ∧
    (∀ ds, lookupL ls defaultLocale = some ds →
      mainReport ls = some (computeReport ls ds)) := by
  have hmain : ∀ o, lookupL ls defaultLocale = o →
      mainReport ls =
        (match o with
          | none => none
          | some ds => some (computeReport ls ds)) := by
    intro o ho
    unfold mainReport
    rw [ho]
  constructor
  · cases hl : lookupL ls defaultLocale with
    | none =>
      rw [hmain none hl]
      simp [lookupL_eq_none.mp hl]
    | some ds =>
      rw [hmain (some ds) hl]
      constructor
      · intro h
        exact absurd h (by simp)
      · intro hno
        rw [lookupL_eq_none.mpr hno] at hl
        exact Option.noConfusion hl
  · intro ds h
    rw [hmain (some ds) h]

theorem mainReport_default_locale_witness :
    lookupL [(defaultLocale, [])] defaultLocale = some [] ∧
      mainReport [(defaultLocale, [])] =
        some (computeReport [(defaultLocale, [])] []) :=
  ⟨by decide, (mainReport_default_locale _).2 [] (by decide)⟩

/-- C7: the final report is sorted by record name, ascending and
lexicographic: every record's name is less than or equal to the name of
every later record, in particular of the one that follows it. -/
theorem computeReport_sorted (ls : LocaleMap) (ds : StrMap) :
    (computeReport ls ds).Sorted byName := by
  unfold computeReport
  exact List.sorted_insertionSort byName _

theorem computeRecord_fold (nm : Str) (lm : Int) :
    ∀ (ls : LocaleMap) (acc : StringResource),
      ls.foldl (classifyLocale nm lm) acc =
        { acc with
          missingLocales :=
            acc.missingLocales ++ (ls.filter (missP nm)).map Prod.fst
          outdatedLocales :=
            acc.outdatedLocales ++ (ls.filter (outdP nm lm)).map Prod.fst }
  | [], acc => by simp
  | p :: rest, acc => by
    have ih := computeRecord_fold nm lm rest (classifyLocale nm lm acc p)
    simp only [List.foldl_cons, List.filter_cons]
    rw [ih]
    cases hp : lookupS p.2 nm with
    | none =>
      simp [classifyLocale, missP, outdP, hp]
    | some e =>
      by_cases hlt : e.lastModified < lm
      · simp [classifyLocale, missP, outdP, hp, hlt]
      · simp [classifyLocale, missP, outdP, hp, hlt]

/-- Closed form of `computeRecord`: the missing and outdated lists are the
keys of the index filtered by the two classification predicates, in index
order. -/
theorem computeRecord_spec (ls : LocaleMap) (str : XmlStringResource) :
    computeRecord ls str =
      { name := str.name
        value := trimSpace str.value
        missingLocales := (ls.filter (missP str.name)).map Prod.fst
        outdatedLocales :=
          (ls.filter (outdP str.name str.lastModified)).map Prod.fst } := by
  unfold computeRecord
  rw [computeRecord_fold]
  simp

theorem nodup_keys_eq {α β : Type} {ls : List (α × β)}
    (hnodup : (ls.map Prod.fst).Nodup) {k : α} {v v' : β}
    (h1 : (k, v) ∈ ls) (h2 : (k, v') ∈ ls) : v = v' := by
  induction ls with
  | nil => cases h1
  | cons p rest ih =>
    simp only [List.map_cons, List.nodup_cons] at hnodup
    cases h1 with
    | head =>
      cases h2 with
      | head => rfl
      | tail _ h2' =>
        exact absurd (List.mem_map_of_mem Prod.fst h2') (by simpa using hnodup.1)
    | tail _ h1' =>
      cases h2 with
      | head =>
        exact absurd (List.mem_map_of_mem Prod.fst h1') (by simpa using hnodup.1)
      | tail _ h2' => exact ih hnodup.2 h1' h2'

theorem mem_filter_map_fst {α β : Type} {ls : List (α × β)}
    {p : α × β → Bool} {k : α} :
    k ∈ (ls.filter p).map Prod.fst ↔ ∃ v, (k, v) ∈ ls ∧ p (k, v) = true := by
  constructor
  · intro h
    obtain ⟨q, hq, hfst⟩ := List.mem_map.mp h
    obtain ⟨hmem, hp⟩ := List.mem_filter.mp hq
    obtain ⟨a, b⟩ := q
    cases hfst
    exact ⟨b, hmem, hp⟩
  · rintro ⟨v, hmem, hp⟩
    exact List.mem_map.mpr ⟨(k, v), List.mem_filter.mpr ⟨hmem, hp⟩, rfl⟩

theorem mem_reportFor_flagged (ls : LocaleMap) :
    ∀ (ds : StrMap) (acc : List StringResource) (r : StringResource),
      r ∈ ds.foldl (appendIfFlagged ls) acc → r ∈ acc ∨ flagged r = true
  | [], _, r, h => Or.inl h
  | p :: rest, acc, r, h => by
    have ih := mem_reportFor_flagged ls rest (appendIfFlagged ls acc p) r h
    rcases ih with hacc | hflag
    · unfold appendIfFlagged at hacc
      by_cases hf : flagged (computeRecord ls p.2) = true
      · rw [if_pos hf] at hacc
        rcases List.mem_append.mp hacc with h1 | h1
        · exact Or.inl h1
        · simp only [List.mem_singleton] at h1
          subst h1
          exact Or.inr hf
      · rw [if_neg hf] at hacc
        exact Or.inl hacc
    · exact Or.inr hflag

/-- C1: for a canonical entry and any locale of the index, the locale is
classified missing exactly when its inner map lacks the entry's name, and
outdated exactly when its entry's timestamp is strictly earlier than the
canonical one; a record whose two lists are both empty never appears in the
report. -/
theorem computeRecord_classification (ls : LocaleMap) (ds : StrMap)
    (str : XmlStringResource) (l : Str) (m : StrMap)
    (hnodup : (ls.map Prod.fst).Nodup) (hmem : (l, m) ∈ ls) :
    (l ∈ (computeRecord ls str).missingLocales ↔ lookupS m str.name = none) ∧
    (l ∈ (computeRecord ls str).outdatedLocales ↔
      ∃ e, lookupS m str.name = some e ∧
        e.lastModified < str.lastModified) ∧
    (∀ r ∈ computeReport ls ds, ¬(r.missingLocales = [] ∧ r.outdatedLocales = [])) := by
  refine ⟨?_, ?_, ?_⟩
  · rw [computeRecord_spec]
    simp only [mem_filter_map_fst]
    constructor
    · rintro ⟨v, hv, hp⟩
      have hvm : v = m := nodup_keys_eq hnodup hv hmem
      subst hvm
      simpa [missP, Option.isNone_iff_eq_none] using hp
    · intro h
      exact ⟨m, hmem, by simpa [missP, Option.isNone_iff_eq_none] using h⟩
  · rw [computeRecord_spec]
    simp only [mem_filter_map_fst]
    constructor
    · rintro ⟨v, hv, hp⟩
      have hvm : v = m := nodup_keys_eq hnodup hv hmem
      rw [hvm] at hp
      unfold outdP at hp
      cases he : lookupS m str.name with
      | none => rw [he] at hp; cases hp
      | some e =>
        rw [he] at hp
        exact ⟨e, rfl, of_decide_eq_true hp⟩
    · rintro ⟨e, he, hlt⟩
      refine ⟨m, hmem, ?_⟩
      unfold outdP
      rw [he]
      exact decide_eq_true hlt
  · intro r hr
    have hr' : r ∈ reportFor ls ds := by
      unfold computeReport at hr
      exact (List.mem_insertionSort byName).mp hr
    rcases mem_reportFor_flagged ls ds [] r hr' with h | h
    · cases h
    · intro ⟨h1, h2⟩
      unfold flagged at h
      rw [h1, h2] at h
      simp at h

theorem computeRecord_classification_witness :
    ((['f', 'r'] : Str) ∈ (computeRecord
        [(defaultLocale, [(['a'], ⟨['a'], ['v'], 5, []⟩)]), (['f', 'r'], [])]
        ⟨['a'], ['v'], 5, []⟩).missingLocales ↔
      lookupS [] ['a'] = none) ∧
    ((['f', 'r'] : Str) ∈ (computeRecord
        [(defaultLocale, [(['a'], ⟨['a'], ['v'], 5, []⟩)]), (['f', 'r'], [])]
        ⟨['a'], ['v'], 5, []⟩).outdatedLocales ↔
      ∃ e, lookupS [] ['a'] = some e ∧
        e.lastModified < (⟨['a'], ['v'], 5, []⟩ : XmlStringResource).lastModified) ∧
    (∀ r ∈ computeReport
        [(defaultLocale, [(['a'], ⟨['a'], ['v'], 5, []⟩)]), (['f', 'r'], [])]
        [(['a'], ⟨['a'], ['v'], 5, []⟩)],
      ¬(r.missingLocales = [] ∧ r.outdatedLocales = [])) :=
  computeRecord_classification _ _ _ _ _ (by decide) (by decide)

theorem computeRecord_name (ls : LocaleMap) (e : XmlStringResource) :
    (computeRecord ls e).name = e.name := by
  rw [computeRecord_spec]

theorem recordEquiv_computeRecord {ls₁ ls₂ : LocaleMap} (hls : ls₁.Perm ls₂)
    (e : XmlStringResource) :
    recordEquiv (computeRecord ls₁ e) (computeRecord ls₂ e) := by
  unfold recordEquiv
  rw [computeRecord_spec, computeRecord_spec]
  exact ⟨rfl, rfl, (hls.filter (missP e.name)).map Prod.fst,
    (hls.filter (outdP e.name e.lastModified)).map Prod.fst⟩

theorem flagged_computeRecord {ls₁ ls₂ : LocaleMap} (hls : ls₁.Perm ls₂)
    (e : XmlStringResource) :
    flagged (computeRecord ls₁ e) = flagged (computeRecord ls₂ e) := by
  have h := recordEquiv_computeRecord hls e
  unfold recordEquiv at h
  obtain ⟨-, -, hm, ho⟩ := h
  unfold flagged
  rw [hm.length_eq, ho.length_eq]

theorem reportFor_fold (ls : LocaleMap) :
    ∀ (ds : StrMap) (acc : List StringResource),
      ds.foldl (appendIfFlagged ls) acc =
        acc ++ ((ds.map (fun p => computeRecord ls p.2)).filter flagged)
  | [], acc => by simp
  | p :: rest, acc => by
    have ih := reportFor_fold ls rest (appendIfFlagged ls acc p)
    simp only [List.foldl_cons, List.map_cons, List.filter_cons]
    rw [ih]
    unfold appendIfFlagged
    by_cases hf : flagged (computeRecord ls p.2) = true
    · rw [if_pos hf, hf]
      simp
    · rw [if_neg hf]
      simp only [Bool.not_eq_true] at hf
      rw [hf]
      simp

theorem reportFor_eq (ls : LocaleMap) (ds : StrMap) :
    reportFor ls ds = (ds.map (fun p => computeRecord ls p.2)).filter flagged := by
  unfold reportFor
  rw [reportFor_fold]
  simp

theorem forall₂_recordEquiv_of_names :
    ∀ (s₁ s₂ : List StringResource),
      s₁.map (fun r => r.name) = s₂.map (fun r => r.name) →
      (∀ a ∈ s₁, ∀ b ∈ s₂, a.name = b.name → recordEquiv a b) →
      List.Forall₂ recordEquiv s₁ s₂
  | [], [], _, _ => List.Forall₂.nil
  | [], b :: s₂, hmap, _ => by simp at hmap
  | a :: s₁, [], hmap, _ => by simp at hmap
  | a :: s₁, b :: s₂, hmap, hrel => by
    simp only [List.map_cons, List.cons.injEq] at hmap
    refine List.Forall₂.cons (hrel a (by simp) b (by simp) hmap.1) ?_
    exact forall₂_recordEquiv_of_names s₁ s₂ hmap.2
      (fun x hx y hy h =>
        hrel x (List.mem_cons_of_mem a hx) y (List.mem_cons_of_mem b hy) h)

theorem sorted_names_of_sorted {s : List StringResource} (h : s.Sorted byName) :
    (s.map (fun r => r.name)).Sorted (· ≤ ·) :=
  List.pairwise_map.mpr h

/-- C6 as stated is false: `main` appends to each record's locale lists in
Go map iteration order, which the language does not fix between runs; two
enumerations of the same constructed index (same key-value pairs, permuted)
yield reports that differ in the order of a record's missing list. -/
theorem compute_twice_counterexample :
    ([(defaultLocale, [(['a'], ⟨['a'], ['v'], 5, []⟩)]), (['f'], []), (['g'], [])] :
        LocaleMap).Perm
      [(defaultLocale, [(['a'], ⟨['a'], ['v'], 5, []⟩)]), (['g'], []), (['f'], [])] ∧
    computeReport
        [(defaultLocale, [(['a'], ⟨['a'], ['v'], 5, []⟩)]), (['f'], []), (['g'], [])]
        [(['a'], ⟨['a'], ['v'], 5, []⟩)] ≠
      computeReport
        [(defaultLocale, [(['a'], ⟨['a'], ['v'], 5, []⟩)]), (['g'], []), (['f'], [])]
        [(['a'], ⟨['a'], ['v'], 5, []⟩)] :=
  ⟨by decide, by decide⟩

/-- C6 amended: the discrepancy computation is a deterministic function of
the index enumeration, and for any two enumerations of the same constructed
index (permutations of the same locale and entry pairs, entry names unique
in the canonical map) the two runs produce the same records in the same
sorted order, each record agreeing up to a permutation of its missing and
outdated locale lists. -/
theorem computeReport_perm (ls₁ ls₂ : LocaleMap) (ds₁ ds₂ : StrMap)
    (hls : ls₁.Perm ls₂) (hds : ds₁.Perm ds₂)
    (hnames : (ds₁.map (fun p => p.2.name)).Nodup) :
    List.Forall₂ recordEquiv (computeReport ls₁ ds₁) (computeReport ls₂ ds₂) := by
  unfold computeReport
  rw [reportFor_eq, reportFor_eq, List.filter_map, List.filter_map]
  have hpred : ds₂.filter (flagged ∘ fun p => computeRecord ls₂ p.2) =
      ds₂.filter (flagged ∘ fun p => computeRecord ls₁ p.2) := by
    apply List.filter_congr
    intro p _
    simp only [Function.comp_apply]
    exact (flagged_computeRecord hls p.2).symm
  rw [hpred]
  have hw : (ds₁.filter (flagged ∘ fun p => computeRecord ls₁ p.2)).Perm
      (ds₂.filter (flagged ∘ fun p => computeRecord ls₁ p.2)) :=
    hds.filter _
  have hsub₁ : ∀ p, p ∈ ds₁.filter (flagged ∘ fun p => computeRecord ls₁ p.2) →
      p ∈ ds₁ := fun p hp => List.mem_of_mem_filter hp
  have hnameseq :
      (((ds₁.filter (flagged ∘ fun p => computeRecord ls₁ p.2)).map
          (fun p => computeRecord ls₁ p.2)).insertionSort byName).map
            (fun r => r.name) =
      (((ds₂.filter (flagged ∘ fun p => computeRecord ls₁ p.2)).map
          (fun p => computeRecord ls₂ p.2)).insertionSort byName).map
            (fun r => r.name) := by
    apply List.eq_of_perm_of_sorted ?_ (sorted_names_of_sorted
      (List.sorted_insertionSort byName _)) (sorted_names_of_sorted
      (List.sorted_insertionSort byName _))
    refine (((List.perm_insertionSort byName _).map _).trans ?_).trans
      (((List.perm_insertionSort byName _).map _).symm)
    rw [List.map_map, List.map_map]
    have h₁ : (ds₁.filter (flagged ∘ fun p => computeRecord ls₁ p.2)).map
        ((fun r : StringResource => r.name) ∘ fun p => computeRecord ls₁ p.2) =
        (ds₁.filter (flagged ∘ fun p => computeRecord ls₁ p.2)).map
          (fun p => p.2.name) := by
      apply List.map_congr_left
      intro p _
      simp only [Function.comp_apply]
      exact computeRecord_name ls₁ p.2
    have h₂ : (ds₂.filter (flagged ∘ fun p => computeRecord ls₁ p.2)).map
        ((fun r : StringResource => r.name) ∘ fun p => computeRecord ls₂ p.2) =
        (ds₂.filter (flagged ∘ fun p => computeRecord ls₁ p.2)).map
          (fun p => p.2.name) := by
      apply List.map_congr_left
      intro p _
      simp only [Function.comp_apply]
      exact computeRecord_name ls₂ p.2
    rw [h₁, h₂]
    exact hw.map _
  apply forall₂_recordEquiv_of_names _ _ hnameseq
  intro a ha b hb hab
  rw [List.mem_insertionSort] at ha hb
  obtain ⟨p₁, hp₁, rfl⟩ := List.mem_map.mp ha
  obtain ⟨p₂, hp₂, rfl⟩ := List.mem_map.mp hb
  have hp₂' : p₂ ∈ ds₁.filter (flagged ∘ fun p => computeRecord ls₁ p.2) :=
    hw.symm.subset hp₂
  have hname : p₁.2.name = p₂.2.name := by
    rw [computeRecord_name, computeRecord_name] at hab
    exact hab
  have hpp : p₁ = p₂ :=
    List.inj_on_of_nodup_map hnames (hsub₁ p₁ hp₁) (hsub₁ p₂ hp₂') hname
  rw [← hpp]
  exact recordEquiv_computeRecord hls p₁.2

theorem computeReport_perm_witness :
    List.Forall₂ recordEquiv
      (computeReport
        [(defaultLocale, [(['a'], ⟨['a'], ['v'], 5, []⟩)]), (['f'], []), (['g'], [])]
        [(['a'], ⟨['a'], ['v'], 5, []⟩)])
      (computeReport
        [(defaultLocale, [(['a'], ⟨['a'], ['v'], 5, []⟩)]), (['g'], []), (['f'], [])]
        [(['a'], ⟨['a'], ['v'], 5, []⟩)]) :=
  computeReport_perm _ _ _ _ (by decide) (by decide) (by decide)

theorem mem_insertEntry {mm : StrMap} {k : Str} {v : XmlStringResource}
    {q : Str × XmlStringResource} :
    q ∈ insertEntry mm k v → q ∈ mm ∨ q = (k, v) := by
  induction mm with
  | nil =>
    intro h
    simp only [insertEntry, List.mem_singleton] at h
    exact Or.inr h
  | cons p rest ih =>
    obtain ⟨k0, v0⟩ := p
    simp only [insertEntry]
    split
    · intro h
      cases h with
      | head => exact Or.inr rfl
      | tail _ h' => exact Or.inl (List.mem_cons_of_mem _ h')
    · intro h
      cases h with
      | head => exact Or.inl (List.mem_cons_self _ _)
      | tail _ h' =>
        rcases ih h' with h'' | h''
        · exact Or.inl (List.mem_cons_of_mem _ h'')
        · exact Or.inr h''

theorem mem_updateLocale {m : LocaleMap} {key : Str} {g : StrMap → StrMap}
    {q : Str × StrMap} :
    q ∈ updateLocale m key g → q ∈ m ∨ ∃ mm, (key, mm) ∈ m ∧ q = (key, g mm) := by
  induction m with
  | nil =>
    intro h
    simp [updateLocale] at h
  | cons p rest ih =>
    obtain ⟨k0, m0⟩ := p
    simp only [updateLocale]
    split
    · rename_i hk
      intro h
      cases h with
      | head => exact Or.inr ⟨m0, by rw [hk]; exact List.mem_cons_self _ _, by rw [hk]⟩
      | tail _ h' => exact Or.inl (List.mem_cons_of_mem _ h')
    · intro h
      cases h with
      | head => exact Or.inl (List.mem_cons_self _ _)
      | tail _ h' =>
        rcases ih h' with h'' | ⟨mm, hmm, hq⟩
        · exact Or.inl (List.mem_cons_of_mem _ h'')
        · exact Or.inr ⟨mm, List.mem_cons_of_mem _ hmm, hq⟩

theorem processItems_origin (git : GitOracle) (now : Int)
    (path content locale : Str) (files : List CatalogFile)
    (f : CatalogFile) (arr : XmlStringArrayResource) (hf : f ∈ files)
    (harr : arr ∈ f.resources.stringArrays)
    (htra : IsTranslatable arr.translatable = true) :
    ∀ (i : Nat) (items : List XmlStringResource) (acc : LocaleMap),
      (∀ item ∈ items, item ∈ arr.items) →
      (∀ p ∈ acc, ∀ q ∈ p.2, EntryOrigin files q.1 q.2) →
      ∀ p ∈ processItems git now path content locale arr.name i items acc,
        ∀ q ∈ p.2, EntryOrigin files q.1 q.2
  | _, [], _, _, hacc => hacc
  | i, item :: rest, acc, hitems, hacc => by
    simp only [processItems]
    refine processItems_origin git now path content locale files f arr hf harr
      htra (i + 1) rest _
      (fun it hit => hitems it (List.mem_cons_of_mem item hit)) ?_
    intro p hp q hq
    rcases mem_updateLocale hp with hp' | ⟨mm, hmm, rfl⟩
    · exact hacc p hp' q hq
    · rcases mem_insertEntry hq with hq' | rfl
      · exact hacc (locale, mm) hmm q hq'
      · exact Or.inr ⟨f, hf, arr, harr, htra, i, rfl,
          item, hitems item (List.mem_cons_self item rest), rfl, rfl, rfl⟩

theorem processStrings_origin (git : GitOracle) (now : Int)
    (path content locale : Str) (files : List CatalogFile) :
    ∀ (ss : List XmlStringResource) (acc : LocaleMap),
      (∀ s ∈ ss, ∃ f ∈ files, s ∈ f.resources.strings) →
      (∀ p ∈ acc, ∀ q ∈ p.2, EntryOrigin files q.1 q.2) →
      ∀ p ∈ processStrings git now path content locale ss acc,
        ∀ q ∈ p.2, EntryOrigin files q.1 q.2
  | [], _, _, hacc => hacc
  | s :: rest, acc, hss, hacc => by
    simp only [processStrings]
    refine processStrings_origin git now path content locale files rest _
      (fun s' hs' => hss s' (List.mem_cons_of_mem s hs')) ?_
    by_cases htr : IsTranslatable s.translatable = true
    · rw [if_pos htr]
      intro p hp q hq
      rcases mem_updateLocale hp with hp' | ⟨mm, hmm, rfl⟩
      · exact hacc p hp' q hq
      · rcases mem_insertEntry hq with hq' | rfl
        · exact hacc (locale, mm) hmm q hq'
        · obtain ⟨f, hf, hsf⟩ := hss s (List.mem_cons_self s rest)
          exact Or.inl ⟨f, hf, s, hsf, htr, rfl, rfl, rfl, rfl⟩
    · rw [if_neg htr]
      exact hacc

theorem processArrays_origin (git : GitOracle) (now : Int)
    (path content locale : Str) (files : List CatalogFile) :
    ∀ (arrs : List XmlStringArrayResource) (acc : LocaleMap),
      (∀ arr ∈ arrs, ∃ f ∈ files, arr ∈ f.resources.stringArrays) →
      (∀ p ∈ acc, ∀ q ∈ p.2, EntryOrigin files q.1 q.2) →
      ∀ p ∈ processArrays git now path content locale arrs acc,
        ∀ q ∈ p.2, EntryOrigin files q.1 q.2
  | [], _, _, hacc => hacc
  | arr :: rest, acc, harrs, hacc => by
    simp only [processArrays]
    refine processArrays_origin git now path content locale files rest _
      (fun a ha => harrs a (List.mem_cons_of_mem arr ha)) ?_
    by_cases htr : IsTranslatable arr.translatable = true
    · rw [if_pos htr]
      obtain ⟨f, hf, harrf⟩ := harrs arr (List.mem_cons_self arr rest)
      exact processItems_origin git now path content locale files f arr hf harrf
        htr 0 arr.items acc (fun _ h => h) hacc
    · rw [if_neg htr]
      exact hacc

theorem processFile_origin (git : GitOracle) (now : Int)
    (files : List CatalogFile) (f : CatalogFile) (hf : f ∈ files)
    (m : LocaleMap) (hm : ∀ p ∈ m, ∀ q ∈ p.2, EntryOrigin files q.1 q.2) :
    ∀ p ∈ processFile git now m f, ∀ q ∈ p.2, EntryOrigin files q.1 q.2 := by
  simp only [processFile]
  refine processArrays_origin git now f.path f.content _ files
    f.resources.stringArrays _ (fun arr ha => ⟨f, hf, ha⟩) ?_
  refine processStrings_origin git now f.path f.content _ files
    f.resources.strings _ (fun s hs => ⟨f, hf, hs⟩) ?_
  split
  · intro p hp q hq
    rcases List.mem_append.mp hp with hp' | hp'
    · exact hm p hp' q hq
    · simp only [List.mem_singleton] at hp'
      subst hp'
      cases hq
  · exact hm

theorem processFiles_origin (git : GitOracle) (now : Int)
    (files : List CatalogFile) :
    ∀ (rest : List CatalogFile) (m : LocaleMap),
      (∀ f ∈ rest, f ∈ files) →
      (∀ p ∈ m, ∀ q ∈ p.2, EntryOrigin files q.1 q.2) →
      ∀ p ∈ processFiles git now rest m, ∀ q ∈ p.2, EntryOrigin files q.1 q.2
  | [], _, _, hm => hm
  | f :: rest, m, hrest, hm => by
    simp only [processFiles]
    exact processFiles_origin git now files rest _
      (fun f' h => hrest f' (List.mem_cons_of_mem f h))
      (processFile_origin git now files f (hrest f (List.mem_cons_self f rest)) m hm)

/-- C4: every entry stored in the locale index originates from a
translatable flat string (and then itself carries a translatable marker) or
from an item of a translatable string array, under a synthesized name; an
entry explicitly marked non-translatable is never inserted, for flat
entries or any item of a non-translatable collection. -/
theorem findTranslatableStrings_translatable_only
    (git : GitOracle) (now : Int) (files : List CatalogFile) :
    ∀ p ∈ findTranslatableStrings git now files, ∀ q ∈ p.2,
      EntryOrigin files q.1 q.2 := by
  unfold findTranslatableStrings
  refine processFiles_origin git now files files [] (fun _ h => h) ?_
  intro p hp
  cases hp

theorem findTranslatableStrings_translatable_only_witness :
    EntryOrigin
      [⟨"app/values/s.xml".toList, ['x'], ⟨[⟨['a'], ['v'], 0, []⟩], []⟩⟩]
      ['a'] ⟨['a'], ['v'], 7, []⟩ :=
  findTranslatableStrings_translatable_only (fun _ _ _ => none) 7
    [⟨"app/values/s.xml".toList, ['x'], ⟨[⟨['a'], ['v'], 0, []⟩], []⟩⟩]
    (defaultLocale, [(['a'], ⟨['a'], ['v'], 7, []⟩)]) (by decide)
    (['a'], ⟨['a'], ['v'], 7, []⟩) (by decide)

theorem lookupS_insertEntry (k' : Str) (v : XmlStringResource) :
    ∀ (mm : StrMap) (k : Str),
      lookupS (insertEntry mm k' v) k =
        if k' = k then some v else lookupS mm k
  | [], k => by
    simp only [insertEntry, lookupS]
  | (k0, v0) :: rest, k => by
    have ih := lookupS_insertEntry k' v rest k
    by_cases h0 : k0 = k'
    · simp only [insertEntry, if_pos h0, lookupS]
      by_cases hk : k' = k
      · rw [if_pos hk, if_pos hk]
      · rw [if_neg hk, if_neg hk, if_neg (fun hh => hk (h0.symm.trans hh))]
    · simp only [insertEntry, if_neg h0, lookupS, ih]
      by_cases hk0 : k0 = k
      · rw [if_pos hk0, if_neg (fun hh => h0 (hk0.trans hh.symm)), if_pos hk0]
      · rw [if_neg hk0]
        by_cases hk : k' = k
        · rw [if_pos hk, if_pos hk]
        · rw [if_neg hk, if_neg hk, if_neg hk0]

theorem lookupL_updateLocale (key : Str) (g : StrMap → StrMap) :
    ∀ m : LocaleMap, lookupL (updateLocale m key g) key = (lookupL m key).map g
  | [] => by simp [updateLocale, lookupL]
  | (k0, m0) :: rest => by
    have ih := lookupL_updateLocale key g rest
    by_cases h0 : k0 = key
    · simp only [updateLocale, if_pos h0, lookupL, Option.map_some']
    · simp only [updateLocale, if_neg h0, lookupL, ih]

theorem lookupL_append_none (key : Str) (mm0 : StrMap) :
    ∀ (m : LocaleMap), lookupL m key = none →
      lookupL (m ++ [(key, mm0)]) key = some mm0
  | [], _ => by simp [lookupL]
  | (k0, m0) :: rest, h => by
    rw [List.cons_append]
    simp only [lookupL] at h ⊢
    by_cases h0 : k0 = key
    · rw [if_pos h0] at h
      exact Option.noConfusion h
    · rw [if_neg h0] at h
      rw [if_neg h0]
      exact lookupL_append_none key mm0 rest h

theorem hasEntry_updateLocale_insert {m : LocaleMap} {locale nm k : Str}
    {v : XmlStringResource} (h : HasEntry m locale nm) :
    HasEntry (updateLocale m locale (fun mm => insertEntry mm k v)) locale nm := by
  obtain ⟨mm, hl, hs⟩ := h
  refine ⟨insertEntry mm k v, ?_, ?_⟩
  · rw [lookupL_updateLocale, hl]
    rfl
  · rw [lookupS_insertEntry]
    by_cases hk : k = nm
    · rw [if_pos hk]
      rfl
    · rw [if_neg hk]
      exact hs

theorem lookupL_updateLocale_isSome {m : LocaleMap} {locale : Str}
    {g : StrMap → StrMap} (h : (lookupL m locale).isSome = true) :
    (lookupL (updateLocale m locale g) locale).isSome = true := by
  rw [lookupL_updateLocale]
  cases hl : lookupL m locale with
  | none =>
    rw [hl] at h
    simp at h
  | some mm => rfl

theorem processItems_hasEntry (git : GitOracle) (now : Int)
    (path content locale arrName nm : Str) :
    ∀ (i : Nat) (items : List XmlStringResource) (acc : LocaleMap),
      HasEntry acc locale nm →
      HasEntry (processItems git now path content locale arrName i items acc)
        locale nm
  | _, [], _, h => h
  | i, item :: rest, acc, h => by
    simp only [processItems]
    exact processItems_hasEntry git now path content locale arrName nm (i + 1)
      rest _ (hasEntry_updateLocale_insert h)

theorem processStrings_hasEntry (git : GitOracle) (now : Int)
    (path content locale nm : Str) :
    ∀ (ss : List XmlStringResource) (acc : LocaleMap),
      HasEntry acc locale nm →
      HasEntry (processStrings git now path content locale ss acc) locale nm
  | [], _, h => h
  | s :: rest, acc, h => by
    simp only [processStrings]
    refine processStrings_hasEntry git now path content locale nm rest _ ?_
    by_cases htr : IsTranslatable s.translatable = true
    · rw [if_pos htr]
      exact hasEntry_updateLocale_insert h
    · rw [if_neg htr]
      exact h

theorem processArrays_hasEntry (git : GitOracle) (now : Int)
    (path content locale nm : Str) :
    ∀ (arrs : List XmlStringArrayResource) (acc : LocaleMap),
      HasEntry acc locale nm →
      HasEntry (processArrays git now path content locale arrs acc) locale nm
  | [], _, h => h
  | arr :: rest, acc, h => by
    simp only [processArrays]
    refine processArrays_hasEntry git now path content locale nm rest _ ?_
    by_cases htr : IsTranslatable arr.translatable = true
    · rw [if_pos htr]
      exact processItems_hasEntry git now path content locale arr.name nm 0
        arr.items acc h
    · rw [if_neg htr]
      exact h

theorem processStrings_establish (git : GitOracle) (now : Int)
    (path content locale : Str) (s : XmlStringResource)
    (htr : IsTranslatable s.translatable = true) :
    ∀ (ss : List XmlStringResource) (acc : LocaleMap), s ∈ ss →
      (lookupL acc locale).isSome = true →
      HasEntry (processStrings git now path content locale ss acc) locale s.name
  | [], _, hmem, _ => absurd hmem (by simp)
  | s' :: rest, acc, hmem, hsome => by
    simp only [processStrings]
    rcases List.mem_cons.mp hmem with heq | hmem'
    · rw [← heq, if_pos htr]
      apply processStrings_hasEntry
      obtain ⟨mm, hmm⟩ := Option.isSome_iff_exists.mp hsome
      refine ⟨insertEntry mm s.name
        { s with lastModified := (resolveLastModified git now path content s.value).1 },
        ?_, ?_⟩
      · rw [lookupL_updateLocale, hmm]
        rfl
      · rw [lookupS_insertEntry, if_pos rfl]
        rfl
    · refine processStrings_establish git now path content locale s htr rest _
        hmem' ?_
      by_cases htr' : IsTranslatable s'.translatable = true
      · rw [if_pos htr']
        exact lookupL_updateLocale_isSome hsome
      · rw [if_neg htr']
        exact hsome

theorem m1_isSome {m : LocaleMap} {locale : Str} {cnt : Nat} (hcnt : 0 < cnt) :
    (lookupL (if lookupL m locale = none ∧ 0 < cnt then m ++ [(locale, [])] else m)
        locale).isSome = true := by
  by_cases hc : lookupL m locale = none ∧ 0 < cnt
  · rw [if_pos hc, lookupL_append_none locale [] m hc.1]
    rfl
  · rw [if_neg hc]
    cases hl : lookupL m locale with
    | none => exact absurd ⟨hl, hcnt⟩ hc
    | some _ => rfl

/-- C8: when provenance resolution fails for a translatable entry (search
term not found in the content, or the git call failing or unparseable), the
entry's timestamp falls back to the current wall-clock time with a warning,
the entry is still inserted into the index under its locale, and processing
of the remaining catalogs continues; the parse never aborts. -/
theorem provenance_failure_recovery (git : GitOracle) (now : Int)
    (f : CatalogFile) (rest : List CatalogFile) (m : LocaleMap)
    (s : XmlStringResource) (hs : s ∈ f.resources.strings)
    (htr : IsTranslatable s.translatable = true)
    (hfail : getLineRange f.content s.value = none ∨
      ∃ st ct, getLineRange f.content s.value = some (st, ct) ∧
        git f.path st ct = none) :
    resolveLastModified git now f.path f.content s.value = (now, true) ∧
    HasEntry (processFile git now m f) (getLocaleForValuesFile f.path) s.name ∧
    findTranslatableStrings git now (f :: rest) =
      processFiles git now rest (processFile git now [] f) := by
  refine ⟨?_, ?_, rfl⟩
  · unfold resolveLastModified
    rcases hfail with h | ⟨st, ct, h1, h2⟩
    · simp only [h]
    · simp only [h1, h2]
  · simp only [processFile]
    apply processArrays_hasEntry
    refine processStrings_establish git now f.path f.content _ s htr
      f.resources.strings _ hs ?_
    have hpos : 0 < f.resources.strings.length + f.resources.stringArrays.length := by
      have := List.length_pos.mpr (List.ne_nil_of_mem hs)
      omega
    exact m1_isSome hpos

theorem provenance_failure_recovery_witness :
    resolveLastModified (fun _ _ _ => none) 7 ("p/values/s.xml".toList) ['x'] ['v'] =
        (7, true) ∧
      HasEntry
        (processFile (fun _ _ _ => none) 7 []
          ⟨"p/values/s.xml".toList, ['x'], ⟨[⟨['a'], ['v'], 0, []⟩], []⟩⟩)
        (getLocaleForValuesFile ("p/values/s.xml".toList)) ['a'] ∧
      findTranslatableStrings (fun _ _ _ => none) 7
          [⟨"p/values/s.xml".toList, ['x'], ⟨[⟨['a'], ['v'], 0, []⟩], []⟩⟩] =
        processFiles (fun _ _ _ => none) 7 []
          (processFile (fun _ _ _ => none) 7 []
            ⟨"p/values/s.xml".toList, ['x'], ⟨[⟨['a'], ['v'], 0, []⟩], []⟩⟩) :=
  provenance_failure_recovery (fun _ _ _ => none) 7
    ⟨"p/values/s.xml".toList, ['x'], ⟨[⟨['a'], ['v'], 0, []⟩], []⟩⟩ [] []
    ⟨['a'], ['v'], 0, []⟩ (by decide) (by decide) (Or.inl (by decide))

end AndroidTranslations
